import Mathlib

/-!
Verification of the save-answersheets instruction interpreter and fetch
orchestration engine (version 2021-09-16 source).  The JavaScript source is
shallowly embedded: the file system is a finite map from absolute file names
to file data, the Path Policy (`checkPath`), script parser (`parseScript`),
byte-size parser (`parseBytes`), cookie parsing (`parseCookies`) and the
execution loop (`runLoop` / `processScript`) are translated function by
function.  External collaborators (HTTP transport, the puppeteer render
capability, the zip assembler, directory creation) are modelled only through
their observable effect on the file map and an event trace.
-/

namespace SaveAnswersheets

/-- Run options, after CLI parsing.  `downloadOnly` models
`options['download-only']` (empty string means no subject filter);
`redownloadIfSmaller` models the numeric value of
`options['redownload-if-smaller']` after `parseBytes` (`none` means the
option was not supplied); `skipPdfs` models `options['skip-pdfs']`. -/
structure Options where
  downloadOnly : String
  redownloadIfSmaller : Option Nat
  skipPdfs : Bool
deriving DecidableEq

/-- Data stored for one file in the modelled file system: a fetched file is
known only by its size, a file written by `save-text` by its content. -/
inductive FileVal where
  | fetched (size : Nat)
  | text (content : String)
deriving DecidableEq

/-- The size of a stored file, as returned by `fs.statSync(filepath).size`. -/
def FileVal.size : FileVal → Nat
  | .fetched n => n
  | .text s => s.length

/-- The file system: an association list from absolute file names to data.
Directories are not tracked separately; only files are observable to the
Path Policy. -/
abbrev FS := List (String × FileVal)

/-- Models `pathExists` (an `fs.access` callback wrapper) for files. -/
def pathExists (fs : FS) (filepath : String) : Bool :=
  (fs.lookup filepath).isSome

/-- Models `getFileSize`: `fs.statSync(filepath).size`.  Only meaningful for
existing files (the source would throw otherwise). -/
def getFileSize (fs : FS) (filepath : String) : Nat :=
  ((fs.lookup filepath).map FileVal.size).getD 0

/-- Writing a file: the new entry shadows any previous one. -/
def writeFile (fs : FS) (filepath : String) (v : FileVal) : FS :=
  (filepath, v) :: fs

/-- Models `path.resolve(basePath, relativePath)` for an already-resolved
base and a normalized relative path: joins them with a separator. -/
def resolvePath (basePath relativePath : String) : String :=
  basePath ++ "/" ++ relativePath

/-- Models `path.dirname`: everything before the last separator, or `"."`
when the path has no separator. -/
def dirname (s : String) : String :=
  let r := s.data.reverse.dropWhile (fun c => !(c == '/'))
  if r.isEmpty then "." else String.mk r.tail.reverse

/-- Models `deleteFolder` (`fs.rmdirSync(filepath, {recursive: true})`):
every file lying under the directory (or named exactly by it) disappears. -/
def deleteFolder (dir : String) (fs : FS) : FS :=
  fs.filter (fun e => !((dir ++ "/").data.isPrefixOf e.1.data || e.1 == dir))

/-- The three outcomes of the Path Policy: `fetch` carries the resolved
absolute path (the source returns the filename string); the two skip
outcomes correspond to the source returning `''` after its two distinct
log lines. -/
inductive CheckResult where
  | fetch (filename : String)
  | skipNotOfInterest
  | skipAlreadyPresent
deriving DecidableEq

/-- Result of `checkPath` together with the file system after its side
effect (the only possible effect is the recursive directory deletion). -/
structure CheckOut where
  result : CheckResult
  fs : FS
deriving DecidableEq

/-- Direct translation of `checkPath(basePath, relativePath)`.  With a
subject filter set it tests `relativePath.startsWith(filter + '/responses.pdf')`
and never touches the file system.  Without a filter, an existing file is
skipped unless the redownload threshold is configured, the path ends in
`/responses.pdf` and the existing size is strictly below the threshold, in
which case the containing directory is deleted and the path refetched. -/
def checkPath (opts : Options) (fs : FS) (basePath relativePath : String) : CheckOut :=
  let filename := resolvePath basePath relativePath
  if opts.downloadOnly ≠ "" then
    if (opts.downloadOnly ++ "/responses.pdf").data.isPrefixOf relativePath.data then
      ⟨.fetch filename, fs⟩
    else
      ⟨.skipNotOfInterest, fs⟩
  else
    if pathExists fs filename then
      match opts.redownloadIfSmaller with
      | some threshold =>
        if "/responses.pdf".data.isSuffixOf relativePath.data then
          if getFileSize fs filename < threshold then
            ⟨.fetch filename, deleteFolder (dirname filename) fs⟩
          else
            ⟨.skipAlreadyPresent, fs⟩
        else
          ⟨.skipAlreadyPresent, fs⟩
      | none => ⟨.skipAlreadyPresent, fs⟩
    else
      ⟨.fetch filename, fs⟩

/-- `true` for a space or tab: the separator class of the token-splitting
regex and of the optional run preceding a line break. -/
def isSpTab (c : Char) : Bool := c == ' ' || c == '\t'

/-- ASCII part of the JavaScript whitespace class, matched greedily after a
line break by the line-splitting regex. -/
def jsIsSpace (c : Char) : Bool :=
  c == ' ' || c == '\t' || c == '\n' || c == '\r' || c == '\x0b' || c == '\x0c'

/-- A carriage return or line feed. -/
def isNLChar (c : Char) : Bool := c == '\r' || c == '\n'

/-- Splits a character list around the first character satisfying `p`:
the part strictly before it and the part strictly after it. -/
def findCh (p : Char → Bool) : List Char → Option (List Char × List Char)
  | [] => none
  | c :: rest =>
    if p c then some ([], rest)
    else (findCh p rest).map (fun q => (c :: q.1, q.2))

theorem findCh_snd_lt (p : Char → Bool) (s : List Char) :
    ∀ pre post, findCh p s = some (pre, post) → post.length < s.length := by
  induction s with
  | nil => intro pre post h; simp [findCh] at h
  | cons c rest ih =>
    intro pre post h
    cases hp : p c with
    | true =>
      simp only [findCh, hp, if_true] at h
      obtain ⟨-, h2⟩ := Prod.mk.injEq .. ▸ Option.some.inj h
      simp [← h2]
    | false =>
      cases hfind : findCh p rest with
      | none => simp [findCh, hp, hfind] at h
      | some q =>
        simp only [findCh, hp, hfind, Option.map_some', if_false] at h
        obtain ⟨-, h2⟩ := Prod.mk.injEq .. ▸ Option.some.inj h
        have := ih q.1 q.2 (by rw [hfind])
        simp only [← h2, List.length_cons]
        omega

/-- Removes a trailing run of characters satisfying `p`. -/
def dropTrailing (p : Char → Bool) (l : List Char) : List Char :=
  (l.reverse.dropWhile p).reverse

theorem dropWhile_length_le {α : Type} (p : α → Bool) (l : List α) :
    (l.dropWhile p).length ≤ l.length := by
  induction l with
  | nil => simp [List.dropWhile]
  | cons a t ih =>
    rw [List.dropWhile_cons]
    split
    · exact Nat.le_succ_of_le ih
    · exact Nat.le_refl _

/-- Structural worker for `splitLines`.  Every recursive step consumes at
least the line-break character, so fuel equal to the input length makes
this total and exact; with fuel exhausted the input is empty and the
fallback agrees with the unbounded recursion. -/
def splitLinesAux : Nat → List Char → List (List Char)
  | 0, s => [s]
  | fuel + 1, s =>
    match findCh isNLChar s with
    | none => [s]
    | some (pre, post) =>
      dropTrailing isSpTab pre :: splitLinesAux fuel (post.dropWhile jsIsSpace)

/-- Splits the script text into logical lines along the separator regex of
`parseScript`: an optional run of spaces or tabs, one line-break character,
then a greedy run of whitespace reaching into the next line. -/
def splitLines (s : List Char) : List (List Char) :=
  splitLinesAux s.length s

/-- Structural worker for `splitRuns`; fuel as in `splitLinesAux`. -/
def splitRunsAux (isSep : Char → Bool) : Nat → List Char → List (List Char)
  | 0, s => [s.takeWhile (fun c => !isSep c)]
  | fuel + 1, s =>
    match s.dropWhile (fun c => !isSep c) with
    | [] => [s.takeWhile (fun c => !isSep c)]
    | _ :: rest =>
      s.takeWhile (fun c => !isSep c) :: splitRunsAux isSep fuel (rest.dropWhile isSep)

/-- Splits on maximal runs of characters satisfying `isSep`, keeping a
leading or a trailing empty piece exactly as JavaScript
`split(/[ \t]+/)` does. -/
def splitRuns (isSep : Char → Bool) (s : List Char) : List (List Char) :=
  splitRunsAux isSep s.length s

/-- The line-splitting, comment filtering and token-splitting pipeline at
the head of `parseScript`: one token list per retained row. -/
def tokenizeScript (script : String) : List (List String) :=
  ((splitLines script.data).filter
      (fun l => !l.isEmpty && !(l.headD ' ' == '#'))).map
    (fun l => (splitRuns isSpTab l).map String.mk)

/-- The punctuation of the disallowed-filename character class
(double quote, backtick, apostrophe and backslash written by code point). -/
def disallowedPunct : List Char :=
  ['*', '?', '&', '<', '>', Char.ofNat 34, Char.ofNat 96, '|', Char.ofNat 39,
   ':', Char.ofNat 92]

/-- Membership in the disallowed-filename regex
`[\x00-\x1F\x7F-\x9F*?&<>"..|..:\\]` of `verifyAction`. -/
def isDisallowedChar (c : Char) : Bool :=
  c.toNat ≤ 0x1F || (0x7F ≤ c.toNat && c.toNat ≤ 0x9F) || disallowedPunct.contains c

/-- `disallowedFilenameChars.test(s)`. -/
def hasDisallowed (s : String) : Bool := s.data.any isDisallowedChar

/-- Direct translation of `verifyAction(action, row)`; the source's error
strings are kept in abbreviated form. -/
def verifyAction (action : List String) (row : Nat) : Except String Unit :=
  if row = 0 then
    if action.getD 0 "" ≠ "zip-name" then
      .error "First line of the instructions script must give the zip-name."
    else if action.length ≠ 2 then
      .error "zip-name line should only say zip-name <filename>."
    else if hasDisallowed (action.getD 1 "") then
      .error "The zip name may only contain characters -, _, ., a-z, A-Z and 0-9."
    else .ok ()
  else if action.getD 0 "" = "cookies" then
    if action.length ≠ 2 then
      .error "cookies line should only say cookies <base64blob>."
    else .ok ()
  else
    if action.getD 0 "" ≠ "save-file" ∧ action.getD 0 "" ≠ "save-pdf" ∧
        action.getD 0 "" ≠ "save-text" then
      .error "After the first line, the only recognised actions are save-file, save-pdf and save-text."
    else if action.length ≠ 4 ∨ action.getD 2 "" ≠ "as" then
      .error "save actions must be of the form save-file <URL> as <file/path/in/zip>."
    else if hasDisallowed (action.getD 3 "") then
      .error "The filename contains disallowed characters."
    else .ok ()

/-- `actions.forEach(verifyAction)`: the first thrown error aborts. -/
def verifyAll : List (List String) → Nat → Except String Unit
  | [], _ => .ok ()
  | a :: rest, i =>
    match verifyAction a i with
    | .error e => .error e
    | .ok _ => verifyAll rest (i + 1)

/-- Direct translation of `parseScript(script)`: tokenize, then validate
every row; returns the rows on success. -/
def parseScript (script : String) : Except String (List (List String)) :=
  let actions := tokenizeScript script
  match verifyAll actions 0 with
  | .error e => .error e
  | .ok _ => .ok actions

/-- Value of the digit characters captured by `(\d+)`, as the JavaScript
multiplication coerces the captured string to a number. -/
def digitsVal (d : List Char) : Nat :=
  d.foldl (fun a c => a * 10 + (c.toNat - 48)) 0

/-- The ordered alternation `B|KB|MB|GB` of the size regex, matched
case-insensitively; returns the matched characters exactly as written. -/
def matchUnit : List Char → Option (List Char)
  | [] => none
  | c1 :: rest =>
    if c1.toUpper == 'B' then some [c1]
    else
      match rest with
      | [] => none
      | c2 :: _ =>
        if (c1.toUpper == 'K' || c1.toUpper == 'M' || c1.toUpper == 'G') &&
            c2.toUpper == 'B' then
          some [c1, c2]
        else none

/-- Leftmost match of the unanchored regex `(\d+)(B|KB|MB|GB)` with the
ignore-case flag: scans for the first digit run immediately followed by a
unit, returning the digit characters and the unit characters as matched. -/
def execSizeRegex : List Char → Option (List Char × List Char)
  | [] => none
  | c :: rest =>
    if c.isDigit then
      match matchUnit (rest.dropWhile Char.isDigit) with
      | some u => some (c :: rest.takeWhile Char.isDigit, u)
      | none => execSizeRegex rest
    else execSizeRegex rest

/-- JavaScript number produced by `match[1] * units[match[2]]`: `nan` when
the unit as matched is not a key of the units table. -/
inductive JsNum where
  | nan
  | num (n : Nat)
deriving DecidableEq

/-- The `units` object of `parseBytes`; property lookup is case-sensitive. -/
def unitFactor : List Char → Option Nat
  | ['B'] => some 1
  | ['K', 'B'] => some 1024
  | ['M', 'B'] => some (1024 * 1024)
  | ['G', 'B'] => some (1024 * 1024 * 1024)
  | _ => none

/-- Direct translation of `parseBytes(bytesString)`: regex search, the
`hasOwnProperty` check on the uppercased unit, then the case-sensitive
lookup `units[match[2]]` used in the multiplication. -/
def parseBytes (bytesString : String) : Except String JsNum :=
  match execSizeRegex bytesString.data with
  | none => .error (bytesString ++ " is not a valid file size.")
  | some (d, u) =>
    if (unitFactor (u.map Char.toUpper)).isSome then
      match unitFactor u with
      | some f => .ok (.num (digitsVal d * f))
      | none => .ok .nan
    else .error (bytesString ++ " is not a valid file size.")

/-- One cookie object passed to `page.setCookie`; `value` is `none` when
`bits[1]` is undefined (no equals sign in the segment). -/
structure Cookie where
  name : String
  value : Option String
  domain : String
deriving DecidableEq

/-- Structural worker for `cookieSegs`; fuel as in `splitLinesAux`. -/
def cookieSegsAux : Nat → List Char → List (List Char)
  | 0, s => [s]
  | fuel + 1, s =>
    match findCh (fun c => c == ';') s with
    | none => [s]
    | some (pre, post) =>
      dropTrailing (fun c => c == ' ') pre ::
        cookieSegsAux fuel (post.dropWhile (fun c => c == ' '))

/-- Splits a cookie header along the separator regex of `parseCookies`
(a semicolon with its adjacent runs of spaces). -/
def cookieSegs (s : List Char) : List (List Char) :=
  cookieSegsAux s.length s

/-- JavaScript `split` with a single-character separator: every occurrence
separates, adjacent occurrences produce empty pieces. -/
def jsSplitEvery (sep : Char) : List Char → List (List Char)
  | [] => [[]]
  | c :: rest =>
    if c == sep then [] :: jsSplitEvery sep rest
    else
      match jsSplitEvery sep rest with
      | [] => [[c]]
      | piece :: pieces => (c :: piece) :: pieces

/-- Direct translation of `parseCookies(cookiesHeader, urlString)`.  The
`hostname` argument stands for `urlUtils.parse(urlString).hostname`, which
is computed by the external URL library. -/
def parseCookies (cookiesHeader : String) (hostname : String) : List Cookie :=
  (cookieSegs cookiesHeader.data).map (fun seg =>
    let bits := (jsSplitEvery '=' seg).take 2
    { name := String.mk (bits.getD 0 [])
      value := (bits.get? 1).map String.mk
      domain := hostname })

/-- Value of one base64 alphabet character; `none` for characters the Node
decoder skips (including the padding sign). -/
def b64Val (c : Char) : Option Nat :=
  if 'A' ≤ c ∧ c ≤ 'Z' then some (c.toNat - 65)
  else if 'a' ≤ c ∧ c ≤ 'z' then some (c.toNat - 97 + 26)
  else if '0' ≤ c ∧ c ≤ '9' then some (c.toNat - 48 + 52)
  else if c = '+' then some 62
  else if c = '/' then some 63
  else none

/-- Regroups base64 6-bit values into bytes, discarding trailing bits. -/
def b64Bytes : List Nat → List Nat
  | a :: b :: c :: d :: rest =>
    (a * 4 + b / 16) :: ((b % 16) * 16 + c / 4) :: ((c % 4) * 64 + d) :: b64Bytes rest
  | [a, b] => [a * 4 + b / 16]
  | [a, b, c] => [a * 4 + b / 16, (b % 16) * 16 + c / 4]
  | _ => []

/-- Models `(Buffer.from(blob, 'base64')).toString('ascii')`: base64
decoding followed by the ascii codec, which masks every byte to 7 bits. -/
def decodeBase64Ascii (blob : String) : String :=
  String.mk ((b64Bytes (blob.data.filterMap b64Val)).map (fun n => Char.ofNat (n % 128)))

/-- The substitution performed by `saveTextAsFile`:
`rawContent.replace(/_/g, ' ')`. -/
def underscoreToSpace (s : String) : String :=
  String.mk (s.data.map (fun c => if c = '_' then ' ' else c))

/-- An observable operation of the execution loop: one HTTP(S) GET streamed
to a file (`saveUrlAsFile`), one authenticated render to a document
(`saveUrlAsPdf`), a rendered-document skip caused by the skip-pdfs option,
or one literal text write (`saveTextAsFile`).  The `ctx` field records the
active cookie context passed to the fetch provider. -/
inductive Ev where
  | httpGet (url file ctx : String)
  | render (url file ctx : String)
  | pdfOptionSkip (file : String)
  | textWrite (file content : String)
deriving DecidableEq

/-- `action[0]` of a token row. -/
def verbOf (row : List String) : String := row.getD 0 ""

/-- `action[3]` of a token row: the relative destination path. -/
def destOf (row : List String) : String := row.getD 3 ""

/-- Effect of one processed row on the active cookie string of the loop in
`readAndProcessInstructionFile`: a `cookies` row replaces it with the
decoded blob, every other row leaves it unchanged. -/
def updCookies (row : List String) (ck : String) : String :=
  if verbOf row = "cookies" then decodeBase64Ascii (row.getD 1 "") else ck

/-- Direct translation of the directive-consuming loop of
`readAndProcessInstructionFile`: rows are consumed front to back, the
cookie string threads through, each save row consults `checkPath` and on a
fetch outcome performs its provider operation.  Returns the final file
system, the chronological operation trace, and per save row its relative
path and Path Policy outcome.  The `sizes` oracle gives the size of the
body an HTTP fetch or render would produce at an absolute file name. -/
def runLoop (opts : Options) (sizes : String → Nat) (filepath : String) :
    List (List String) → String → FS →
    Except String (FS × List Ev × List (String × CheckResult))
  | [], _, fs => .ok (fs, [], [])
  | row :: rest, ck, fs =>
    if verbOf row = "save-file" then
      let co := checkPath opts fs filepath (destOf row)
      match co.result with
      | .fetch f =>
        match runLoop opts sizes filepath rest ck
            (writeFile co.fs f (.fetched (sizes f))) with
        | .error e => .error e
        | .ok (fs2, evs, outs) =>
          .ok (fs2, .httpGet (row.getD 1 "") f ck :: evs, (destOf row, co.result) :: outs)
      | r =>
        match runLoop opts sizes filepath rest ck co.fs with
        | .error e => .error e
        | .ok (fs2, evs, outs) => .ok (fs2, evs, (destOf row, r) :: outs)
    else if verbOf row = "save-pdf" then
      let co := checkPath opts fs filepath (destOf row)
      match co.result with
      | .fetch f =>
        if opts.skipPdfs then
          match runLoop opts sizes filepath rest ck co.fs with
          | .error e => .error e
          | .ok (fs2, evs, outs) =>
            .ok (fs2, .pdfOptionSkip f :: evs, (destOf row, co.result) :: outs)
        else
          match runLoop opts sizes filepath rest ck
              (writeFile co.fs f (.fetched (sizes f))) with
          | .error e => .error e
          | .ok (fs2, evs, outs) =>
            .ok (fs2, .render (row.getD 1 "") f ck :: evs, (destOf row, co.result) :: outs)
      | r =>
        match runLoop opts sizes filepath rest ck co.fs with
        | .error e => .error e
        | .ok (fs2, evs, outs) => .ok (fs2, evs, (destOf row, r) :: outs)
    else if verbOf row = "save-text" then
      let co := checkPath opts fs filepath (destOf row)
      match co.result with
      | .fetch f =>
        match runLoop opts sizes filepath rest ck
            (writeFile co.fs f (.text (underscoreToSpace (row.getD 1 "")))) with
        | .error e => .error e
        | .ok (fs2, evs, outs) =>
          .ok (fs2, .textWrite f (underscoreToSpace (row.getD 1 "")) :: evs,
            (destOf row, co.result) :: outs)
      | r =>
        match runLoop opts sizes filepath rest ck co.fs with
        | .error e => .error e
        | .ok (fs2, evs, outs) => .ok (fs2, evs, (destOf row, r) :: outs)
    else if verbOf row = "cookies" then
      runLoop opts sizes filepath rest (decodeBase64Ascii (row.getD 1 "")) fs
    else
      .error "Unrecognised action. Should have been caught before now."

/-- Direct translation of `readAndProcessInstructionFile` up to archiving:
parse and validate the script, reject an empty one, shift the zip-name row
to form the output directory, then drive the loop with an empty cookie
string.  Directory creation and the final zip assembly touch no file the
Path Policy inspects and are not modelled. -/
def processScript (opts : Options) (sizes : String → Nat) (fs : FS) (script : String) :
    Except String (FS × List Ev × List (String × CheckResult)) :=
  match parseScript script with
  | .error e => .error e
  | .ok [] => .error "Instruction script is empty!"
  | .ok (first :: rest) =>
    runLoop opts sizes (resolvePath "output" (first.getD 1 "")) rest "" fs

/-- The active cookie string of the loop just before row `i` is processed:
the fold of `updCookies` over the earlier rows, starting from the empty
string the loop initializes `cookies` with. -/
def cookieCtxAt (rows : List (List String)) (i : Nat) : String :=
  (rows.take i).foldl (fun ck row => updCookies row ck) ""

/-- The blob of the last `cookies` row of the list, if any: the
specification-side description of which cookie context should be active
after these rows. -/
def lastCookieBlob : List (List String) → Option String
  | [] => none
  | row :: rest =>
    match lastCookieBlob rest with
    | some b => some b
    | none => if verbOf row = "cookies" then some (row.getD 1 "") else none

/-- With no subject filter and no size threshold the Path Policy is exactly
the skip-if-exists check. -/
theorem checkPath_default (b : Bool) (fs : FS) (bp r : String) :
    checkPath ⟨"", none, b⟩ fs bp r =
      if pathExists fs (resolvePath bp r) then ⟨.skipAlreadyPresent, fs⟩
      else ⟨.fetch (resolvePath bp r), fs⟩ := by
  simp only [checkPath]
  split <;> simp_all

/-- C2 (confirmed): with a non-empty subject filter `F`, `checkPath`
returns Fetch with the resolved absolute path exactly when the relative
destination starts with `F ++ "/responses.pdf"`, and returns the
Skip-NotOfInterest outcome, leaving the file system unchanged, for every
other path regardless of what exists on disk. -/
theorem checkPath_filter_scope (opts : Options) (h : opts.downloadOnly ≠ "")
    (fs : FS) (bp r : String) :
    ((checkPath opts fs bp r).result = .fetch (resolvePath bp r) ↔
      (opts.downloadOnly ++ "/responses.pdf").data.isPrefixOf r.data = true) ∧
    ((opts.downloadOnly ++ "/responses.pdf").data.isPrefixOf r.data = false →
      checkPath opts fs bp r = ⟨.skipNotOfInterest, fs⟩) := by
  simp only [checkPath, h, if_true, ne_eq, not_false_eq_true, if_pos]
  split <;> simp_all

/-- C2 witness: with filter `alice`, destination `bob/responses.pdf` is
skipped as not of interest even though the file exists on disk. -/
theorem checkPath_filter_scope_witness :
    ((checkPath ⟨"alice", none, false⟩ [("output/t/bob/responses.pdf", .fetched 9)]
        "output/t" "bob/responses.pdf").result =
      .fetch (resolvePath "output/t" "bob/responses.pdf") ↔
      ("alice" ++ "/responses.pdf").data.isPrefixOf "bob/responses.pdf".data = true) ∧
    (("alice" ++ "/responses.pdf").data.isPrefixOf "bob/responses.pdf".data = false →
      checkPath ⟨"alice", none, false⟩ [("output/t/bob/responses.pdf", .fetched 9)]
        "output/t" "bob/responses.pdf" =
      ⟨.skipNotOfInterest, [("output/t/bob/responses.pdf", .fetched 9)]⟩) :=
  checkPath_filter_scope ⟨"alice", none, false⟩ (by decide)
    [("output/t/bob/responses.pdf", .fetched 9)] "output/t" "bob/responses.pdf"

/-- C9 (confirmed): with a subject filter active the Path Policy never
inspects the file system: its outcome is the same for any two file states,
it never deletes anything, it never reports Skip-AlreadyPresent, and the
redownload threshold is irrelevant to it. -/
theorem filter_ignores_filesystem (opts : Options) (h : opts.downloadOnly ≠ "")
    (fs fs' : FS) (bp r : String) :
    (checkPath opts fs bp r).result = (checkPath opts fs' bp r).result ∧
    (checkPath opts fs bp r).fs = fs ∧
    (checkPath opts fs bp r).result ≠ .skipAlreadyPresent ∧
    checkPath opts fs bp r =
      checkPath { opts with redownloadIfSmaller := none } fs bp r := by
  simp only [checkPath, h, ne_eq, not_false_eq_true, if_pos]
  split <;> simp_all

/-- C9 witness: with filter `alice` and threshold 5KB, a matching path is
fetched with no deletion even though a 100-byte `responses.pdf` exists. -/
theorem filter_ignores_filesystem_witness :
    (checkPath ⟨"alice", some 5120, false⟩
        [("output/t/alice/responses.pdf", .fetched 100)] "output/t"
        "alice/responses.pdf").result =
      (checkPath ⟨"alice", some 5120, false⟩ [] "output/t" "alice/responses.pdf").result ∧
    (checkPath ⟨"alice", some 5120, false⟩
        [("output/t/alice/responses.pdf", .fetched 100)] "output/t"
        "alice/responses.pdf").fs = [("output/t/alice/responses.pdf", .fetched 100)] ∧
    (checkPath ⟨"alice", some 5120, false⟩
        [("output/t/alice/responses.pdf", .fetched 100)] "output/t"
        "alice/responses.pdf").result ≠ .skipAlreadyPresent ∧
    checkPath ⟨"alice", some 5120, false⟩
        [("output/t/alice/responses.pdf", .fetched 100)] "output/t"
        "alice/responses.pdf" =
      checkPath ⟨"alice", none, false⟩
        [("output/t/alice/responses.pdf", .fetched 100)] "output/t"
        "alice/responses.pdf" :=
  filter_ignores_filesystem ⟨"alice", some 5120, false⟩ (by decide)
    [("output/t/alice/responses.pdf", .fetched 100)] [] "output/t"
    "alice/responses.pdf"

/-- C1 counterexample: a destination of bare `responses.pdf` ends in the
canonical filename `responses.pdf` and its existing 2000-byte file lies
below the 5120-byte threshold, yet `checkPath` skips it (the code requires
the suffix `/responses.pdf`) and deletes nothing. -/
theorem checkPath_bare_responses_pdf_skipped :
    "responses.pdf".data.isSuffixOf "responses.pdf".data = true ∧
    pathExists [("output/t/responses.pdf", FileVal.fetched 2000)]
      "output/t/responses.pdf" = true ∧
    (2000 : Nat) < 5120 ∧
    checkPath ⟨"", some 5120, false⟩ [("output/t/responses.pdf", FileVal.fetched 2000)]
        "output/t" "responses.pdf" =
      ⟨.skipAlreadyPresent, [("output/t/responses.pdf", FileVal.fetched 2000)]⟩ := by
  refine ⟨by decide, by decide, by decide, by decide⟩

/-- C1 (amended, proved): with no subject filter, a configured threshold
`t`, a relative destination ending in `/responses.pdf`, and an existing
file at the resolved path: when the existing size is strictly below `t`
the policy returns Fetch with the resolved absolute path and the surviving
files are exactly those outside the containing directory; when the size is
at least `t` the policy skips and the file system is untouched. -/
theorem checkPath_size_threshold_refetch (opts : Options) (t : Nat) (fs : FS)
    (bp r : String)
    (h0 : opts.downloadOnly = "") (h1 : opts.redownloadIfSmaller = some t)
    (h2 : "/responses.pdf".data.isSuffixOf r.data = true)
    (h3 : pathExists fs (resolvePath bp r) = true) :
    (getFileSize fs (resolvePath bp r) < t →
      (checkPath opts fs bp r).result = .fetch (resolvePath bp r) ∧
      ∀ e : String × FileVal, e ∈ (checkPath opts fs bp r).fs ↔
        (e ∈ fs ∧
          ¬((dirname (resolvePath bp r) ++ "/").data.isPrefixOf e.1.data = true ∨
            e.1 = dirname (resolvePath bp r)))) ∧
    (t ≤ getFileSize fs (resolvePath bp r) →
      checkPath opts fs bp r = ⟨.skipAlreadyPresent, fs⟩) := by
  simp only [checkPath, h0, h1, h2, h3, ne_eq, not_true_eq_false, if_false,
    if_true, ite_true]
  constructor
  · intro hlt
    rw [if_pos hlt]
    refine ⟨rfl, fun e => ?_⟩
    simp [deleteFolder, List.mem_filter]
    intro _ _
    rw [← Bool.not_eq_true]
    simp [List.isPrefixOf_iff_prefix]
  · intro hge
    rw [if_neg (by omega)]

/-- C1 witness: an existing `alice/responses.pdf` of 2000 bytes under
threshold 5120 is refetched with the `alice` directory emptied, while a
6000-byte file would satisfy the skip branch of the same theorem. -/
theorem checkPath_size_threshold_refetch_witness :
    ((getFileSize [("output/t/alice/responses.pdf", FileVal.fetched 2000)]
        (resolvePath "output/t" "alice/responses.pdf") < 5120 →
      (checkPath ⟨"", some 5120, false⟩
          [("output/t/alice/responses.pdf", FileVal.fetched 2000)]
          "output/t" "alice/responses.pdf").result =
        .fetch (resolvePath "output/t" "alice/responses.pdf") ∧
      ∀ e : String × FileVal,
        e ∈ (checkPath ⟨"", some 5120, false⟩
            [("output/t/alice/responses.pdf", FileVal.fetched 2000)]
            "output/t" "alice/responses.pdf").fs ↔
          (e ∈ [("output/t/alice/responses.pdf", FileVal.fetched 2000)] ∧
            ¬((dirname (resolvePath "output/t" "alice/responses.pdf") ++ "/").data.isPrefixOf
                e.1.data = true ∨
              e.1 = dirname (resolvePath "output/t" "alice/responses.pdf")))) ∧
    (5120 ≤ getFileSize [("output/t/alice/responses.pdf", FileVal.fetched 2000)]
        (resolvePath "output/t" "alice/responses.pdf") →
      checkPath ⟨"", some 5120, false⟩
          [("output/t/alice/responses.pdf", FileVal.fetched 2000)]
          "output/t" "alice/responses.pdf" =
        ⟨.skipAlreadyPresent, [("output/t/alice/responses.pdf", FileVal.fetched 2000)]⟩)) :=
  checkPath_size_threshold_refetch ⟨"", some 5120, false⟩ 5120
    [("output/t/alice/responses.pdf", FileVal.fetched 2000)] "output/t"
    "alice/responses.pdf" (by decide) (by decide) (by decide) (by decide)

/-- Case-insensitive size unit: a character list whose uppercasing is one
of the four table keys `B`, `KB`, `MB`, `GB`. -/
def isUnitToken (u : List Char) : Prop :=
  u.map Char.toUpper ∈ [['B'], ['K', 'B'], ['M', 'B'], ['G', 'B']]

instance (u : List Char) : Decidable (isUnitToken u) := by
  unfold isUnitToken
  infer_instance

/-- The specification-side reading of what the unanchored case-insensitive
size regex accepts: somewhere in the input a nonempty digit run is
immediately followed by a unit. -/
def hasSizeMatch (s : List Char) : Prop :=
  ∃ pre d u suf : List Char, s = pre ++ d ++ u ++ suf ∧ d ≠ [] ∧
    (∀ c ∈ d, c.isDigit = true) ∧ isUnitToken u

theorem toUpper_of_isDigit (c : Char) (h : c.isDigit = true) : c.toUpper = c := by
  have h2 : c.val ≤ 57 := by
    simp [Char.isDigit] at h
    exact h.2
  unfold Char.toUpper
  rw [if_neg]
  intro hcon
  obtain ⟨h97, -⟩ := hcon
  have h3 : c.toNat ≤ 57 := h2
  omega

theorem head_toUpper_not_digit (u0 : Char)
    (h : u0.toUpper = 'B' ∨ u0.toUpper = 'K' ∨ u0.toUpper = 'M' ∨ u0.toUpper = 'G') :
    u0.isDigit = false := by
  cases hd : u0.isDigit
  · rfl
  · exfalso
    have hu := toUpper_of_isDigit u0 hd
    rw [hu] at h
    rcases h with rfl | rfl | rfl | rfl <;> exact absurd hd (by decide)

/-- A unit token is one or two characters with the expected uppercasings. -/
theorem isUnitToken_shape (u : List Char) (hu : isUnitToken u) :
    (∃ u0, u = [u0] ∧ u0.toUpper = 'B') ∨
    (∃ u0 u1, u = [u0, u1] ∧
      (u0.toUpper = 'K' ∨ u0.toUpper = 'M' ∨ u0.toUpper = 'G') ∧
      u1.toUpper = 'B') := by
  simp only [isUnitToken, List.mem_cons, List.not_mem_nil, or_false] at hu
  rcases hu with h | h | h | h
  · cases u with
    | nil => simp at h
    | cons u0 rest =>
      simp only [List.map_cons, List.cons.injEq, List.map_eq_nil] at h
      exact Or.inl ⟨u0, by rw [h.2], h.1⟩
  · cases u with
    | nil => simp at h
    | cons u0 rest =>
      cases rest with
      | nil => simp at h
      | cons u1 rest2 =>
        simp only [List.map_cons, List.cons.injEq, List.map_eq_nil] at h
        exact Or.inr ⟨u0, u1, by rw [h.2.2], Or.inl h.1, h.2.1⟩
  · cases u with
    | nil => simp at h
    | cons u0 rest =>
      cases rest with
      | nil => simp at h
      | cons u1 rest2 =>
        simp only [List.map_cons, List.cons.injEq, List.map_eq_nil] at h
        exact Or.inr ⟨u0, u1, by rw [h.2.2], Or.inr (Or.inl h.1), h.2.1⟩
  · cases u with
    | nil => simp at h
    | cons u0 rest =>
      cases rest with
      | nil => simp at h
      | cons u1 rest2 =>
        simp only [List.map_cons, List.cons.injEq, List.map_eq_nil] at h
        exact Or.inr ⟨u0, u1, by rw [h.2.2], Or.inr (Or.inr h.1), h.2.1⟩

theorem isUnitToken_head_not_digit (u : List Char) (hu : isUnitToken u) :
    ∃ u0 u', u = u0 :: u' ∧ u0.isDigit = false := by
  rcases isUnitToken_shape u hu with ⟨u0, rfl, h0⟩ | ⟨u0, u1, rfl, h0, h1⟩
  · exact ⟨u0, [], rfl, head_toUpper_not_digit u0 (Or.inl h0)⟩
  · exact ⟨u0, [u1], rfl, head_toUpper_not_digit u0 (Or.inr h0)⟩

/-- The alternation matches exactly the unit at the front of its input and
captures its characters as written. -/
theorem matchUnit_of_unit (u suf : List Char) (hu : isUnitToken u) :
    matchUnit (u ++ suf) = some u := by
  rcases isUnitToken_shape u hu with ⟨u0, rfl, h0⟩ | ⟨u0, u1, rfl, h0, h1⟩
  · simp [matchUnit, h0]
  · have hne : ¬ (u0.toUpper == 'B') = true := by
      rcases h0 with h0 | h0 | h0 <;> simp [h0]
    rcases h0 with h0 | h0 | h0 <;> simp [matchUnit, hne, h0, h1]

/-- A successful alternation match is a unit prefix of the input. -/
theorem matchUnit_some (l u : List Char) (h : matchUnit l = some u) :
    (∃ suf, l = u ++ suf) ∧ isUnitToken u := by
  cases l with
  | nil => simp [matchUnit] at h
  | cons c1 rest =>
    cases rest with
    | nil =>
      have hm1 : matchUnit [c1] =
          if c1.toUpper == 'B' then some [c1] else none := rfl
      rw [hm1] at h
      by_cases h1 : (c1.toUpper == 'B') = true
      · rw [if_pos h1] at h
        obtain rfl := (Option.some.inj h).symm
        refine ⟨⟨[], rfl⟩, ?_⟩
        have hb : c1.toUpper = 'B' := by simpa using h1
        simp [isUnitToken, hb]
      · rw [if_neg h1] at h
        simp at h
    | cons c2 rest2 =>
      have hm2 : matchUnit (c1 :: c2 :: rest2) =
          if c1.toUpper == 'B' then some [c1]
          else if (c1.toUpper == 'K' || c1.toUpper == 'M' || c1.toUpper == 'G') &&
              c2.toUpper == 'B' then some [c1, c2]
          else none := rfl
      rw [hm2] at h
      by_cases h1 : (c1.toUpper == 'B') = true
      · rw [if_pos h1] at h
        obtain rfl := (Option.some.inj h).symm
        refine ⟨⟨c2 :: rest2, rfl⟩, ?_⟩
        have hb : c1.toUpper = 'B' := by simpa using h1
        simp [isUnitToken, hb]
      · rw [if_neg h1] at h
        by_cases h2 : ((c1.toUpper == 'K' || c1.toUpper == 'M' || c1.toUpper == 'G') &&
            c2.toUpper == 'B') = true
        · rw [if_pos h2] at h
          obtain rfl := (Option.some.inj h).symm
          refine ⟨⟨rest2, rfl⟩, ?_⟩
          simp only [Bool.and_eq_true, Bool.or_eq_true, beq_iff_eq] at h2
          obtain ⟨hk, hb⟩ := h2
          have hmap : [c1, c2].map Char.toUpper = [c1.toUpper, c2.toUpper] := rfl
          unfold isUnitToken
          rw [hmap, hb]
          rcases hk with (hk | hk) | hk <;> rw [hk] <;> simp
        · rw [if_neg h2] at h
          simp at h

/-- The scanner finds the digit run and unit after any digit-free prefix,
whatever follows them. -/
theorem execSizeRegex_found (pre : List Char) :
    ∀ d u suf : List Char, (∀ c ∈ pre, c.isDigit = false) → d ≠ [] →
      (∀ c ∈ d, c.isDigit = true) → isUnitToken u →
      execSizeRegex (pre ++ d ++ u ++ suf) = some (d, u) := by
  induction pre with
  | nil =>
    intro d u suf _ hne hdig hu
    cases d with
    | nil => exact absurd rfl hne
    | cons c d' =>
      have hc : c.isDigit = true := hdig c (List.mem_cons_self c d')
      have hd' : ∀ x ∈ d', x.isDigit = true :=
        fun x hx => hdig x (List.mem_cons_of_mem c hx)
      obtain ⟨u0, u', huu, hu0d⟩ := isUnitToken_head_not_digit u hu
      have hdrop : (d' ++ (u ++ suf)).dropWhile Char.isDigit = u ++ suf := by
        rw [List.dropWhile_append_of_pos hd', huu]
        simp [List.dropWhile_cons, hu0d]
      have htake : (d' ++ (u ++ suf)).takeWhile Char.isDigit = d' := by
        rw [List.takeWhile_append_of_pos hd', huu]
        simp [List.takeWhile_cons, hu0d]
      have hmu : matchUnit (u ++ suf) = some u := matchUnit_of_unit u suf hu
      show execSizeRegex ([] ++ (c :: d') ++ u ++ suf) = some (c :: d', u)
      simp only [List.nil_append, List.cons_append, List.append_assoc]
      simp only [execSizeRegex, hc, if_true, hdrop, hmu, htake]
  | cons p pre' ih =>
    intro d u suf hpre hne hdig hu
    have hp : p.isDigit = false := hpre p (List.mem_cons_self p pre')
    show execSizeRegex (p :: (pre' ++ d ++ u ++ suf)) = some (d, u)
    simp only [execSizeRegex, hp, Bool.false_eq_true, if_false]
    exact ih d u suf (fun c hc => hpre c (List.mem_cons_of_mem p hc)) hne hdig hu

/-- Wherever a digit run followed by a unit occurs, the scanner finds some
match (not necessarily that one). -/
theorem execSizeRegex_isSome_of_match (pre : List Char) :
    ∀ d u suf : List Char, d ≠ [] → (∀ c ∈ d, c.isDigit = true) → isUnitToken u →
      (execSizeRegex (pre ++ d ++ u ++ suf)).isSome = true := by
  induction pre with
  | nil =>
    intro d u suf hne hdig hu
    rw [execSizeRegex_found [] d u suf (by simp) hne hdig hu]
    rfl
  | cons p pre' ih =>
    intro d u suf hne hdig hu
    show (execSizeRegex (p :: (pre' ++ d ++ u ++ suf))).isSome = true
    simp only [execSizeRegex]
    by_cases hp : p.isDigit = true
    · rw [if_pos hp]
      cases hm : matchUnit ((pre' ++ d ++ u ++ suf).dropWhile Char.isDigit) with
      | some u' => rfl
      | none => exact ih d u suf hne hdig hu
    · rw [if_neg hp]
      exact ih d u suf hne hdig hu

/-- Inversion: a scanner match is a digit run followed by a unit somewhere
in the input, and the captured unit is a unit token. -/
theorem execSizeRegex_inv (s : List Char) : ∀ d u : List Char,
    execSizeRegex s = some (d, u) →
    (∃ pre suf, s = pre ++ d ++ u ++ suf ∧ (∀ c ∈ d, c.isDigit = true) ∧ d ≠ []) ∧
    isUnitToken u := by
  induction s with
  | nil => intro d u h; simp [execSizeRegex] at h
  | cons c rest ih =>
    intro d u h
    simp only [execSizeRegex] at h
    by_cases hc : c.isDigit = true
    · rw [if_pos hc] at h
      cases hm : matchUnit (rest.dropWhile Char.isDigit) with
      | some u' =>
        rw [hm] at h
        obtain ⟨hd, hu⟩ := Prod.mk.injEq .. ▸ Option.some.inj h
        obtain ⟨⟨suf, hsuf⟩, hunit⟩ := matchUnit_some _ u' hm
        subst hd
        subst hu
        refine ⟨⟨[], suf, ?_, ?_, by simp⟩, hunit⟩
        · rw [show (c :: rest : List Char) =
            c :: (rest.takeWhile Char.isDigit ++ rest.dropWhile Char.isDigit) by
              rw [List.takeWhile_append_dropWhile], hsuf]
          simp [List.append_assoc]
        · intro x hx
          rcases List.mem_cons.mp hx with rfl | hx'
          · exact hc
          · exact List.mem_takeWhile_imp hx'
      | none =>
        rw [hm] at h
        obtain ⟨⟨pre, suf, hdec, hdig, hne⟩, hunit⟩ := ih d u h
        exact ⟨⟨c :: pre, suf, by simp [hdec], hdig, hne⟩, hunit⟩
    · rw [if_neg hc] at h
      obtain ⟨⟨pre, suf, hdec, hdig, hne⟩, hunit⟩ := ih d u h
      exact ⟨⟨c :: pre, suf, by simp [hdec], hdig, hne⟩, hunit⟩

/-- The case-insensitive `hasOwnProperty` check always passes on a
captured unit. -/
theorem unitFactor_upper_isSome (u : List Char) (hu : isUnitToken u) :
    (unitFactor (u.map Char.toUpper)).isSome = true := by
  simp only [isUnitToken, List.mem_cons, List.not_mem_nil, or_false] at hu
  rcases hu with h | h | h | h <;> rw [h] <;> rfl

/-- The case-sensitive table lookup is undefined off the four uppercase
keys. -/
theorem unitFactor_eq_none (u : List Char)
    (h : u ∉ [['B'], ['K', 'B'], ['M', 'B'], ['G', 'B']]) : unitFactor u = none := by
  unfold unitFactor
  split
  · exact absurd (by simp) h
  · exact absurd (by simp) h
  · exact absurd (by simp) h
  · exact absurd (by simp) h
  · rfl

/-- C3 counterexample: a lowercase unit passes the case-insensitive
validation but the case-sensitive factor lookup is undefined, so `"5kb"`
parses to NaN instead of 5120; and the unanchored regex accepts
`"x5KBy"` (extra characters around a matching substring) instead of
raising the invalid-size error. -/
theorem parseBytes_counterexample :
    parseBytes "5kb" = .ok .nan ∧
    parseBytes "x5KBy" = .ok (.num 5120) ∧
    parseBytes "5KB" = .ok (.num 5120) := by
  refine ⟨rfl, rfl, rfl⟩

/-- C3 (amended, proved): `parseBytes` raises the invalid-size error
exactly when the input contains no substring consisting of a nonempty
digit run immediately followed by a case-insensitive unit — so `42` and
`5K` error while extra characters around a matching substring are
ignored, not rejected.  On any input decomposing as a digit-free prefix,
a digit run, a unit and an arbitrary suffix (the leftmost match), the
result is the digit value times the unit factor when the unit is written
exactly in uppercase, and NaN for every lowercase or mixed-case spelling,
because the factor-table lookup is case-sensitive although the validation
uppercases. -/
theorem parseBytes_characterization :
    (∀ s : String,
      parseBytes s = .error (s ++ " is not a valid file size.") ↔
        ¬ hasSizeMatch s.data) ∧
    (∀ pre d u suf : List Char, (∀ c ∈ pre, c.isDigit = false) → d ≠ [] →
      (∀ c ∈ d, c.isDigit = true) → isUnitToken u →
      parseBytes (String.mk (pre ++ d ++ u ++ suf)) =
        .ok (if u ∈ [['B'], ['K', 'B'], ['M', 'B'], ['G', 'B']] then
              .num (digitsVal d * (unitFactor u).getD 0)
            else .nan)) := by
  constructor
  · intro s
    constructor
    · intro herr hm
      obtain ⟨pre, d, u, suf, hdec, hne, hdig, hu⟩ := hm
      cases hex : execSizeRegex s.data with
      | none =>
        have hsome : (execSizeRegex s.data).isSome = true := by
          rw [hdec]
          exact execSizeRegex_isSome_of_match pre d u suf hne hdig hu
        rw [hex] at hsome
        simp at hsome
      | some du =>
        obtain ⟨d', u'⟩ := du
        have hunit := (execSizeRegex_inv s.data d' u' hex).2
        have hown := unitFactor_upper_isSome u' hunit
        simp only [parseBytes, hex, hown, if_true] at herr
        cases hfac : unitFactor u' with
        | some f =>
          rw [hfac] at herr
          simp at herr
        | none =>
          rw [hfac] at herr
          simp at herr
    · intro hnm
      cases hex : execSizeRegex s.data with
      | some du =>
        exfalso
        obtain ⟨d', u'⟩ := du
        obtain ⟨⟨pre, suf, hdec, hdig, hne⟩, hunit⟩ :=
          execSizeRegex_inv s.data d' u' hex
        exact hnm ⟨pre, d', u', suf, hdec, hne, hdig, hunit⟩
      | none => simp [parseBytes, hex]
  · intro pre d u suf hpre hne hdig hu
    have hex : execSizeRegex (pre ++ d ++ u ++ suf) = some (d, u) :=
      execSizeRegex_found pre d u suf hpre hne hdig hu
    have hown := unitFactor_upper_isSome u hu
    simp only [parseBytes, hex, hown, if_true]
    by_cases hu4 : u ∈ [['B'], ['K', 'B'], ['M', 'B'], ['G', 'B']]
    · rw [if_pos hu4]
      simp only [List.mem_cons, List.not_mem_nil, or_false] at hu4
      rcases hu4 with rfl | rfl | rfl | rfl <;> rfl
    · rw [if_neg hu4, unitFactor_eq_none u hu4]

/-- C3 witness: the error side at the digit-only input `42` (no unit
follows the digits, so no substring matches), and the match side at
`x5Kby` whose mixed-case unit `Kb` yields NaN. -/
theorem parseBytes_characterization_witness :
    (parseBytes "42" = .error ("42" ++ " is not a valid file size.") ↔
      ¬ hasSizeMatch "42".data) ∧
    parseBytes (String.mk (['x'] ++ ['5'] ++ ['K', 'b'] ++ ['y'])) =
      .ok (if ['K', 'b'] ∈ [['B'], ['K', 'B'], ['M', 'B'], ['G', 'B']] then
            .num (digitsVal ['5'] * (unitFactor ['K', 'b']).getD 0)
          else .nan) :=
  ⟨parseBytes_characterization.1 "42",
   parseBytes_characterization.2 ['x'] ['5'] ['K', 'b'] ['y'] (by decide) (by decide)
     (by decide) (by decide)⟩

/-- C6 (code bug in the source): the zip name `my/archive` contains a
forward slash, which lies outside the allowlist `^[-_.a-zA-Z0-9]+$` that
the specification and the code's own error message require, yet the code
only tests the disallowed-character class, which lacks the slash, so the
script parses successfully. -/
theorem zipname_slash_accepted :
    '/' ∈ "my/archive".data ∧
    hasDisallowed "my/archive" = false ∧
    parseScript "zip-name my/archive" = .ok [["zip-name", "my/archive"]] :=
  ⟨by decide, by decide, rfl⟩

/-- C8 (confirmed): a `save-text` directive whose destination the Path
Policy resolves to Fetch writes exactly the literal content with every
underscore replaced by a space: the written characters agree with the
content at every index up to the underscore substitution, no underscore
survives, and `Hello_World` becomes `Hello World`. -/
theorem save_text_substitution (opts : Options) (sizes : String → Nat)
    (fp C dest ck : String) (fs : FS) (f : String)
    (h : (checkPath opts fs fp dest).result = .fetch f) :
    runLoop opts sizes fp [["save-text", C, "as", dest]] ck fs =
      .ok (writeFile (checkPath opts fs fp dest).fs f (.text (underscoreToSpace C)),
           [.textWrite f (underscoreToSpace C)],
           [(dest, CheckResult.fetch f)]) ∧
    (∀ i : Nat, (underscoreToSpace C).data.get? i =
      (C.data.get? i).map (fun c => if c = '_' then ' ' else c)) ∧
    '_' ∉ (underscoreToSpace C).data ∧
    underscoreToSpace "Hello_World" = "Hello World" := by
  refine ⟨?_, ?_, ?_, rfl⟩
  · have hv : verbOf ["save-text", C, "as", dest] = "save-text" := rfl
    have hd : destOf ["save-text", C, "as", dest] = dest := rfl
    have hg : (["save-text", C, "as", dest].getD 1 "") = C := rfl
    simp only [runLoop, hv, hd, hg, h]
    rfl
  · intro i
    simp [underscoreToSpace, List.get?_map]
  · simp only [underscoreToSpace]
    intro hmem
    rcases List.mem_map.mp hmem with ⟨c, -, hc⟩
    by_cases h1 : c = '_' <;> simp [h1] at hc

/-- C8 witness: the save-text step applied at a concrete fetchable
destination. -/
theorem save_text_substitution_witness :
    runLoop ⟨"", none, false⟩ (fun _ => 0) "output/t"
        [["save-text", "Hello_World", "as", "note.txt"]] "" [] =
      .ok (writeFile (checkPath ⟨"", none, false⟩ [] "output/t" "note.txt").fs
             "output/t/note.txt" (.text (underscoreToSpace "Hello_World")),
           [.textWrite "output/t/note.txt" (underscoreToSpace "Hello_World")],
           [("note.txt", CheckResult.fetch "output/t/note.txt")]) ∧
    (∀ i : Nat, (underscoreToSpace "Hello_World").data.get? i =
      ("Hello_World".data.get? i).map (fun c => if c = '_' then ' ' else c)) ∧
    '_' ∉ (underscoreToSpace "Hello_World").data ∧
    underscoreToSpace "Hello_World" = "Hello World" :=
  save_text_substitution ⟨"", none, false⟩ (fun _ => 0) "output/t" "Hello_World"
    "note.txt" "" [] "output/t/note.txt" (by decide)

/-- The running cookie string of the loop equals the decoded blob of the
last `cookies` row folded over, or the seed when there is none. -/
theorem cookieFold_last (rows : List (List String)) : ∀ ck : String,
    rows.foldl (fun a row => updCookies row a) ck =
      match lastCookieBlob rows with
      | none => ck
      | some b => decodeBase64Ascii b := by
  induction rows with
  | nil => intro ck; rfl
  | cons r rest ih =>
    intro ck
    simp only [List.foldl_cons, lastCookieBlob]
    rw [ih]
    cases hl : lastCookieBlob rest with
    | some b => rfl
    | none =>
      simp only [updCookies]
      split <;> rfl

/-- C4 (confirmed): before every directive the active cookie context is
the base64-decoded blob of the most recent preceding `cookies` row, or
the empty string when none precedes — each `cookies` row replaces the
context wholesale; and in the concrete two-blob script, `urlA` is rendered
with blob1's decoded cookies and `urlB` with blob2's. -/
theorem cookie_context_last_write_wins :
    (∀ (rows : List (List String)) (i : Nat),
      cookieCtxAt rows i =
        match lastCookieBlob (rows.take i) with
        | none => ""
        | some b => decodeBase64Ascii b) ∧
    (∀ (blob1 blob2 urlA urlB : String) (sizes : String → Nat),
      runLoop ⟨"", none, false⟩ sizes "output/z"
          [["cookies", blob1], ["save-pdf", urlA, "as", "a/doc.pdf"],
           ["cookies", blob2], ["save-pdf", urlB, "as", "b/doc.pdf"]] "" [] =
        .ok ([("output/z/b/doc.pdf", .fetched (sizes "output/z/b/doc.pdf")),
              ("output/z/a/doc.pdf", .fetched (sizes "output/z/a/doc.pdf"))],
             [.render urlA "output/z/a/doc.pdf" (decodeBase64Ascii blob1),
              .render urlB "output/z/b/doc.pdf" (decodeBase64Ascii blob2)],
             [("a/doc.pdf", CheckResult.fetch "output/z/a/doc.pdf"),
              ("b/doc.pdf", CheckResult.fetch "output/z/b/doc.pdf")])) := by
  constructor
  · intro rows i
    exact cookieFold_last (rows.take i) ""
  · intro blob1 blob2 urlA urlB sizes
    rfl

theorem jsSplitEvery_ne_nil (sep : Char) (l : List Char) : jsSplitEvery sep l ≠ [] := by
  cases l with
  | nil => simp [jsSplitEvery]
  | cons c rest =>
    simp only [jsSplitEvery]
    split
    · simp
    · split <;> simp

theorem jsSplitEvery_headD (sep : Char) (l : List Char) :
    (jsSplitEvery sep l).headD [] = l.takeWhile (fun c => !(c == sep)) := by
  induction l with
  | nil => rfl
  | cons c rest ih =>
    cases hc : c == sep with
    | true =>
      simp only [jsSplitEvery, hc, if_true, List.headD_cons, List.takeWhile_cons,
        Bool.not_true]
      simp
    | false =>
      cases hsp : jsSplitEvery sep rest with
      | nil => exact absurd hsp (jsSplitEvery_ne_nil sep rest)
      | cons p ps =>
        rw [hsp] at ih
        simp only [jsSplitEvery, hc, Bool.false_eq_true, if_false, hsp,
          List.headD_cons, List.takeWhile_cons, Bool.not_false, if_true]
        simp only [List.headD_cons] at ih
        rw [ih]

theorem jsSplitEvery_second (sep : Char) (l : List Char) :
    (jsSplitEvery sep l).get? 1 =
      if l.contains sep then
        some (((l.dropWhile (fun c => !(c == sep))).drop 1).takeWhile
          (fun c => !(c == sep)))
      else none := by
  induction l with
  | nil => rfl
  | cons c rest ih =>
    cases hc : c == sep with
    | true =>
      have hceq : c = sep := by simpa using hc
      have hcontains : (c :: rest).contains sep = true := by
        simp [List.contains_cons, hceq]
      simp only [jsSplitEvery, hc, if_true, hcontains, List.dropWhile_cons,
        Bool.not_true, Bool.false_eq_true, if_false, List.drop_succ_cons,
        List.drop_zero]
      cases hsp : jsSplitEvery sep rest with
      | nil => exact absurd hsp (jsSplitEvery_ne_nil sep rest)
      | cons p ps =>
        have hh := jsSplitEvery_headD sep rest
        rw [hsp] at hh
        simp only [List.headD_cons] at hh
        simp [hh]
    | false =>
      have hcne : c ≠ sep := by simpa using hc
      have h2 : ¬ sep = c := fun hh => hcne hh.symm
      have hcontains : (c :: rest).contains sep = rest.contains sep := by
        simp [List.contains_cons, h2]
      cases hsp : jsSplitEvery sep rest with
      | nil => exact absurd hsp (jsSplitEvery_ne_nil sep rest)
      | cons p ps =>
        rw [hsp] at ih
        simp only [jsSplitEvery, hc, Bool.false_eq_true, if_false, hsp, hcontains,
          List.dropWhile_cons, Bool.not_false, if_true]
        simpa using ih

theorem take_two_getD_zero (L : List (List Char)) :
    (L.take 2).getD 0 [] = L.headD [] := by
  cases L with
  | nil => rfl
  | cons p ps => rfl

theorem take_two_get?_one (L : List (List Char)) :
    (L.take 2).get? 1 = L.get? 1 := by
  cases L with
  | nil => rfl
  | cons p ps => cases ps <;> rfl

/-- C10 (confirmed): `parseCookies` produces one cookie per segment of the
semicolon split, with the target hostname as domain, the text before the
first equals sign as name, and as value the text between the first and the
second equals sign only — anything from a second equals sign onward is
dropped, and a segment without an equals sign leaves the value undefined. -/
theorem parseCookies_fields (header host : String) (i : Nat) (seg : List Char)
    (h : (cookieSegs header.data).get? i = some seg) :
    ((parseCookies header host).length = (cookieSegs header.data).length ∧
      (parseCookies header host).get? i = some {
        name := String.mk (seg.takeWhile (fun c => !(c == '='))),
        value := if seg.contains '=' then
            some (String.mk (((seg.dropWhile (fun c => !(c == '='))).drop 1).takeWhile
              (fun c => !(c == '='))))
          else none,
        domain := host }) ∧
    parseCookies "n=a=b" host = [⟨"n", some "a", host⟩] := by
  refine ⟨⟨by simp [parseCookies], ?_⟩, rfl⟩
  simp only [parseCookies, List.get?_map, h, Option.map_some']
  congr 1
  have hname := take_two_getD_zero (jsSplitEvery '=' seg)
  have hval := take_two_get?_one (jsSplitEvery '=' seg)
  rw [Cookie.mk.injEq]
  refine ⟨?_, ?_, rfl⟩
  · rw [hname, jsSplitEvery_headD]
  · rw [hval, jsSplitEvery_second]
    split <;> rfl

/-- C10 witness: the field characterization applied to the header
`a=1; b` (segment 0), whose first segment carries name `a` and value `1`. -/
theorem parseCookies_fields_witness :
    ((parseCookies "a=1; b" "host.example").length =
        (cookieSegs "a=1; b".data).length ∧
      (parseCookies "a=1; b" "host.example").get? 0 = some {
        name := String.mk (['a', '=', '1'].takeWhile (fun c => !(c == '='))),
        value := if ['a', '=', '1'].contains '=' then
            some (String.mk (((['a', '=', '1'].dropWhile
              (fun c => !(c == '='))).drop 1).takeWhile (fun c => !(c == '='))))
          else none,
        domain := "host.example" }) ∧
    parseCookies "n=a=b" "host.example" = [⟨"n", some "a", "host.example"⟩] :=
  parseCookies_fields "a=1; b" "host.example" 0 ['a', '=', '1'] (by decide)

/-- If the whole-script validation succeeds, every row passed its own
check. -/
theorem verifyAll_ok_each (rows : List (List String)) : ∀ (k : Nat),
    verifyAll rows k = .ok () →
    ∀ (i : Nat) (row : List String), rows.get? i = some row →
      verifyAction row (k + i) = .ok () := by
  induction rows with
  | nil => intro k _ i row h; simp at h
  | cons a rest ih =>
    intro k hok i row h
    simp only [verifyAll] at hok
    cases hva : verifyAction a k with
    | error e => rw [hva] at hok; exact absurd hok (by simp)
    | ok u =>
      rw [hva] at hok
      cases i with
      | zero =>
        simp only [List.get?_cons_zero, Option.some.injEq] at h
        subst h
        cases u
        simpa using hva
      | succ i' =>
        simp only [List.get?_cons_succ] at h
        have := ih (k + 1) hok i' row h
        rw [show k + (i' + 1) = k + 1 + i' by omega]
        exact this

/-- A save row whose destination has a disallowed character never passes
`verifyAction`. -/
theorem verifyAction_bad_dest (row : List String) (i : Nat) (hi : i ≠ 0)
    (hv : verbOf row = "save-file" ∨ verbOf row = "save-pdf" ∨
      verbOf row = "save-text")
    (hlen : row.length = 4) (has : row.getD 2 "" = "as")
    (hbad : hasDisallowed (destOf row) = true) :
    verifyAction row i ≠ .ok () := by
  simp only [verbOf] at hv
  simp only [destOf] at hbad
  have hckne : ¬ row.getD 0 "" = "cookies" := by
    rcases hv with hv | hv | hv <;> rw [hv] <;> decide
  have hsaves : ¬(¬ row.getD 0 "" = "save-file" ∧ ¬ row.getD 0 "" = "save-pdf" ∧
      ¬ row.getD 0 "" = "save-text") := by
    intro hc
    rcases hv with hv | hv | hv
    · exact hc.1 hv
    · exact hc.2.1 hv
    · exact hc.2.2 hv
  have hform : ¬(¬ row.length = 4 ∨ ¬ row.getD 2 "" = "as") := by
    intro hc
    rcases hc with hc | hc
    · exact hc hlen
    · exact hc has
  intro hok
  unfold verifyAction at hok
  rw [if_neg hi, if_neg hckne, if_neg hsaves, if_neg hform, if_pos hbad] at hok
  exact absurd hok (by simp)

/-- C7 (confirmed): a script containing a save row (at any position past
the zip-name row) whose destination has a disallowed character makes
`parseScript` fail, and the whole pipeline returns that error before any
operation: `processScript` produces no file-system change, no event and no
policy outcome. -/
theorem bad_destination_aborts (opts : Options) (sizes : String → Nat) (fs : FS)
    (script : String) (i : Nat) (row : List String)
    (hi : 1 ≤ i)
    (hrow : (tokenizeScript script).get? i = some row)
    (hv : verbOf row = "save-file" ∨ verbOf row = "save-pdf" ∨
      verbOf row = "save-text")
    (hlen : row.length = 4) (has : row.getD 2 "" = "as")
    (hbad : hasDisallowed (destOf row) = true) :
    (∃ e, parseScript script = .error e) ∧
    (∃ e, processScript opts sizes fs script = .error e) := by
  have hver : verifyAll (tokenizeScript script) 0 ≠ .ok () := by
    intro hok
    have hrowok := verifyAll_ok_each (tokenizeScript script) 0 hok i row hrow
    rw [Nat.zero_add] at hrowok
    exact verifyAction_bad_dest row i (by omega) hv hlen has hbad hrowok
  obtain ⟨e, he⟩ : ∃ e, verifyAll (tokenizeScript script) 0 = .error e := by
    cases hv2 : verifyAll (tokenizeScript script) 0 with
    | ok u => cases u; exact absurd hv2 hver
    | error e => exact ⟨e, rfl⟩
  refine ⟨⟨e, ?_⟩, ⟨e, ?_⟩⟩
  · simp [parseScript, he]
  · simp [processScript, parseScript, he]

/-- C7 witness: a script whose second row writes to `a:b` (colon is
disallowed) aborts both parsing and processing. -/
theorem bad_destination_aborts_witness :
    (∃ e, parseScript "zip-name t\nsave-file u as a:b" = .error e) ∧
    (∃ e, processScript ⟨"", none, false⟩ (fun _ => 0) []
        "zip-name t\nsave-file u as a:b" = .error e) :=
  bad_destination_aborts ⟨"", none, false⟩ (fun _ => 0) []
    "zip-name t\nsave-file u as a:b" 1 ["save-file", "u", "as", "a:b"]
    (by decide) rfl (Or.inl rfl) rfl rfl (by decide)

/-- A row holding one of the three fetch directives. -/
def isSaveVerb (row : List String) : Prop :=
  verbOf row = "save-file" ∨ verbOf row = "save-pdf" ∨ verbOf row = "save-text"

theorem pathExists_writeFile (fs : FS) (f p : String) (v : FileVal)
    (h : pathExists fs p = true) : pathExists (writeFile fs f v) p = true := by
  simp only [pathExists, writeFile, List.lookup] at h ⊢
  by_cases hpf : p == f
  · simp [hpf]
  · simp only [hpf, Bool.false_eq_true, if_false]
    · exact h

theorem pathExists_writeFile_self (fs : FS) (f : String) (v : FileVal) :
    pathExists (writeFile fs f v) f = true := by
  simp [pathExists, writeFile, List.lookup]

/-- Main induction for the idempotence claim: from one successful pass of
the loop under the default options, the file system only grows, every save
destination exists afterwards, and a second pass from the resulting state
performs no operation and reports Skip-AlreadyPresent everywhere. -/
theorem runLoop_rerun (sizes1 sizes2 : String → Nat) (fp : String) :
    ∀ (rows : List (List String)) (ck1 ck2 : String) (fs fs1 : FS)
      (evs1 : List Ev) (outs1 : List (String × CheckResult)),
      runLoop ⟨"", none, false⟩ sizes1 fp rows ck1 fs = .ok (fs1, evs1, outs1) →
      ((∀ f, pathExists fs f = true → pathExists fs1 f = true) ∧
       (∀ row ∈ rows, isSaveVerb row →
          pathExists fs1 (resolvePath fp (destOf row)) = true) ∧
       (∃ outs2,
          runLoop ⟨"", none, false⟩ sizes2 fp rows ck2 fs1 = .ok (fs1, [], outs2) ∧
          ∀ o ∈ outs2, o.2 = CheckResult.skipAlreadyPresent)) := by
  intro rows
  induction rows with
  | nil =>
    intro ck1 ck2 fs fs1 evs1 outs1 h
    simp only [runLoop, Except.ok.injEq, Prod.mk.injEq] at h
    obtain ⟨rfl, -, -⟩ := h
    exact ⟨fun f hf => hf, by simp, [], rfl, by simp⟩
  | cons r rest ih =>
    intro ck1 ck2 fs fs1 evs1 outs1 h
    by_cases hv1 : verbOf r = "save-file"
    · simp only [runLoop, hv1, eq_self_iff_true, if_true, checkPath_default] at h
      by_cases hex : pathExists fs (resolvePath fp (destOf r)) = true
      · simp only [hex, eq_self_iff_true, if_true] at h
        cases hrec : runLoop ⟨"", none, false⟩ sizes1 fp rest ck1 fs with
        | error e => rw [hrec] at h; exact absurd h (by simp)
        | ok o =>
          obtain ⟨fs2, evs, outs⟩ := o
          rw [hrec] at h
          simp only [Except.ok.injEq, Prod.mk.injEq] at h
          obtain ⟨rfl, -, -⟩ := h
          obtain ⟨hmono, hcov, outs2, hrun2, hskip⟩ :=
            ih ck1 ck2 fs fs2 evs outs hrec
          have hex2 : pathExists fs2 (resolvePath fp (destOf r)) = true :=
            hmono _ hex
          refine ⟨hmono, ?_, ?_⟩
          · intro row hr hs
            rcases List.mem_cons.mp hr with rfl | hr'
            · exact hex2
            · exact hcov row hr' hs
          · refine ⟨(destOf r, .skipAlreadyPresent) :: outs2, ?_, ?_⟩
            · simp only [runLoop, hv1, eq_self_iff_true, if_true,
                checkPath_default, hex2, hrun2]
            · intro o ho
              rcases List.mem_cons.mp ho with rfl | ho'
              · rfl
              · exact hskip o ho'
      · simp only [hex, Bool.false_eq_true, if_false] at h
        cases hrec : runLoop ⟨"", none, false⟩ sizes1 fp rest ck1
            (writeFile fs (resolvePath fp (destOf r))
              (.fetched (sizes1 (resolvePath fp (destOf r))))) with
        | error e => rw [hrec] at h; exact absurd h (by simp)
        | ok o =>
          obtain ⟨fs2, evs, outs⟩ := o
          rw [hrec] at h
          simp only [Except.ok.injEq, Prod.mk.injEq] at h
          obtain ⟨rfl, -, -⟩ := h
          obtain ⟨hmono, hcov, outs2, hrun2, hskip⟩ :=
            ih ck1 ck2 _ fs2 evs outs hrec
          have hmono' : ∀ f, pathExists fs f = true → pathExists fs2 f = true :=
            fun f hf => hmono f (pathExists_writeFile _ _ _ _ hf)
          have hex2 : pathExists fs2 (resolvePath fp (destOf r)) = true :=
            hmono _ (pathExists_writeFile_self _ _ _)
          refine ⟨hmono', ?_, ?_⟩
          · intro row hr hs
            rcases List.mem_cons.mp hr with rfl | hr'
            · exact hex2
            · exact hcov row hr' hs
          · refine ⟨(destOf r, .skipAlreadyPresent) :: outs2, ?_, ?_⟩
            · simp only [runLoop, hv1, eq_self_iff_true, if_true,
                checkPath_default, hex2, hrun2]
            · intro o ho
              rcases List.mem_cons.mp ho with rfl | ho'
              · rfl
              · exact hskip o ho'
    · by_cases hv2 : verbOf r = "save-pdf"
      · have hne21 : ¬ ("save-pdf" : String) = "save-file" := by decide
        simp only [runLoop, hv2, hne21, eq_self_iff_true, if_true, if_false,
          Bool.false_eq_true, checkPath_default] at h
        by_cases hex : pathExists fs (resolvePath fp (destOf r)) = true
        · simp only [hex, eq_self_iff_true, if_true] at h
          cases hrec : runLoop ⟨"", none, false⟩ sizes1 fp rest ck1 fs with
          | error e => rw [hrec] at h; exact absurd h (by simp)
          | ok o =>
            obtain ⟨fs2, evs, outs⟩ := o
            rw [hrec] at h
            simp only [Except.ok.injEq, Prod.mk.injEq] at h
            obtain ⟨rfl, -, -⟩ := h
            obtain ⟨hmono, hcov, outs2, hrun2, hskip⟩ :=
              ih ck1 ck2 fs fs2 evs outs hrec
            have hex2 : pathExists fs2 (resolvePath fp (destOf r)) = true :=
              hmono _ hex
            refine ⟨hmono, ?_, ?_⟩
            · intro row hr hs
              rcases List.mem_cons.mp hr with rfl | hr'
              · exact hex2
              · exact hcov row hr' hs
            · refine ⟨(destOf r, .skipAlreadyPresent) :: outs2, ?_, ?_⟩
              · simp only [runLoop, hv2, hne21, eq_self_iff_true, if_true, if_false,
                  Bool.false_eq_true, checkPath_default, hex2, hrun2]
              · intro o ho
                rcases List.mem_cons.mp ho with rfl | ho'
                · rfl
                · exact hskip o ho'
        · simp only [hex, Bool.false_eq_true, if_false] at h
          cases hrec : runLoop ⟨"", none, false⟩ sizes1 fp rest ck1
              (writeFile fs (resolvePath fp (destOf r))
                (.fetched (sizes1 (resolvePath fp (destOf r))))) with
          | error e => rw [hrec] at h; exact absurd h (by simp)
          | ok o =>
            obtain ⟨fs2, evs, outs⟩ := o
            rw [hrec] at h
            simp only [Except.ok.injEq, Prod.mk.injEq] at h
            obtain ⟨rfl, -, -⟩ := h
            obtain ⟨hmono, hcov, outs2, hrun2, hskip⟩ :=
              ih ck1 ck2 _ fs2 evs outs hrec
            have hmono' : ∀ f, pathExists fs f = true → pathExists fs2 f = true :=
              fun f hf => hmono f (pathExists_writeFile _ _ _ _ hf)
            have hex2 : pathExists fs2 (resolvePath fp (destOf r)) = true :=
              hmono _ (pathExists_writeFile_self _ _ _)
            refine ⟨hmono', ?_, ?_⟩
            · intro row hr hs
              rcases List.mem_cons.mp hr with rfl | hr'
              · exact hex2
              · exact hcov row hr' hs
            · refine ⟨(destOf r, .skipAlreadyPresent) :: outs2, ?_, ?_⟩
              · simp only [runLoop, hv2, hne21, eq_self_iff_true, if_true, if_false,
                  Bool.false_eq_true, checkPath_default, hex2, hrun2]
              · intro o ho
                rcases List.mem_cons.mp ho with rfl | ho'
                · rfl
                · exact hskip o ho'
      · by_cases hv3 : verbOf r = "save-text"
        · have hne31 : ¬ ("save-text" : String) = "save-file" := by decide
          have hne32 : ¬ ("save-text" : String) = "save-pdf" := by decide
          simp only [runLoop, hv3, hne31, hne32, eq_self_iff_true, if_true, if_false,
            checkPath_default] at h
          by_cases hex : pathExists fs (resolvePath fp (destOf r)) = true
          · simp only [hex, eq_self_iff_true, if_true] at h
            cases hrec : runLoop ⟨"", none, false⟩ sizes1 fp rest ck1 fs with
            | error e => rw [hrec] at h; exact absurd h (by simp)
            | ok o =>
              obtain ⟨fs2, evs, outs⟩ := o
              rw [hrec] at h
              simp only [Except.ok.injEq, Prod.mk.injEq] at h
              obtain ⟨rfl, -, -⟩ := h
              obtain ⟨hmono, hcov, outs2, hrun2, hskip⟩ :=
                ih ck1 ck2 fs fs2 evs outs hrec
              have hex2 : pathExists fs2 (resolvePath fp (destOf r)) = true :=
                hmono _ hex
              refine ⟨hmono, ?_, ?_⟩
              · intro row hr hs
                rcases List.mem_cons.mp hr with rfl | hr'
                · exact hex2
                · exact hcov row hr' hs
              · refine ⟨(destOf r, .skipAlreadyPresent) :: outs2, ?_, ?_⟩
                · simp only [runLoop, hv3, hne31, hne32, eq_self_iff_true, if_true,
                    if_false, checkPath_default, hex2, hrun2]
                · intro o ho
                  rcases List.mem_cons.mp ho with rfl | ho'
                  · rfl
                  · exact hskip o ho'
          · simp only [hex, Bool.false_eq_true, if_false] at h
            cases hrec : runLoop ⟨"", none, false⟩ sizes1 fp rest ck1
                (writeFile fs (resolvePath fp (destOf r))
                  (.text (underscoreToSpace (r.getD 1 "")))) with
            | error e => rw [hrec] at h; exact absurd h (by simp)
            | ok o =>
              obtain ⟨fs2, evs, outs⟩ := o
              rw [hrec] at h
              simp only [Except.ok.injEq, Prod.mk.injEq] at h
              obtain ⟨rfl, -, -⟩ := h
              obtain ⟨hmono, hcov, outs2, hrun2, hskip⟩ :=
                ih ck1 ck2 _ fs2 evs outs hrec
              have hmono' : ∀ f, pathExists fs f = true → pathExists fs2 f = true :=
                fun f hf => hmono f (pathExists_writeFile _ _ _ _ hf)
              have hex2 : pathExists fs2 (resolvePath fp (destOf r)) = true :=
                hmono _ (pathExists_writeFile_self _ _ _)
              refine ⟨hmono', ?_, ?_⟩
              · intro row hr hs
                rcases List.mem_cons.mp hr with rfl | hr'
                · exact hex2
                · exact hcov row hr' hs
              · refine ⟨(destOf r, .skipAlreadyPresent) :: outs2, ?_, ?_⟩
                · simp only [runLoop, hv3, hne31, hne32, eq_self_iff_true, if_true,
                    if_false, checkPath_default, hex2, hrun2]
                · intro o ho
                  rcases List.mem_cons.mp ho with rfl | ho'
                  · rfl
                  · exact hskip o ho'
        · by_cases hv4 : verbOf r = "cookies"
          · have hne41 : ¬ ("cookies" : String) = "save-file" := by decide
            have hne42 : ¬ ("cookies" : String) = "save-pdf" := by decide
            have hne43 : ¬ ("cookies" : String) = "save-text" := by decide
            simp only [runLoop, hv4, hne41, hne42, hne43, eq_self_iff_true, if_true,
              if_false] at h
            obtain ⟨hmono, hcov, outs2, hrun2, hskip⟩ :=
              ih (decodeBase64Ascii (r.getD 1 ""))
                (decodeBase64Ascii (r.getD 1 "")) fs fs1 evs1 outs1 h
            refine ⟨hmono, ?_, ?_⟩
            · intro row hr hs
              rcases List.mem_cons.mp hr with rfl | hr'
              · rcases hs with hs | hs | hs <;> rw [hs] at hv4 <;> simp at hv4
              · exact hcov row hr' hs
            · refine ⟨outs2, ?_, hskip⟩
              simp only [runLoop, hv4, hne41, hne42, hne43, eq_self_iff_true, if_true,
                if_false, hrun2]
          · simp only [runLoop, hv1, hv2, hv3, hv4, if_false] at h
            exact absurd h (by simp)

/-- C5 (confirmed): rerunning the engine on the unmodified script against
the file system produced by a prior successful run, with no subject filter
and no size threshold set (remaining options at their defaults), performs
zero operations — the trace is empty, the file system is unchanged, and
every save destination reports Skip-AlreadyPresent. -/
theorem rerun_all_already_present (sizes1 sizes2 : String → Nat) (fs0 : FS)
    (script : String) (fs1 : FS) (evs1 : List Ev)
    (outs1 : List (String × CheckResult))
    (h : processScript ⟨"", none, false⟩ sizes1 fs0 script = .ok (fs1, evs1, outs1)) :
    ∃ outs2,
      processScript ⟨"", none, false⟩ sizes2 fs1 script = .ok (fs1, [], outs2) ∧
      ∀ o ∈ outs2, o.2 = CheckResult.skipAlreadyPresent := by
  unfold processScript at h ⊢
  cases hps : parseScript script with
  | error e => rw [hps] at h; exact absurd h (by simp)
  | ok rows =>
    rw [hps] at h
    cases rows with
    | nil => exact absurd h (by simp)
    | cons first rest =>
      obtain ⟨-, -, outs2, hr, hs⟩ :=
        runLoop_rerun sizes1 sizes2 (resolvePath "output" (first.getD 1 ""))
          rest "" "" fs0 fs1 evs1 outs1 h
      exact ⟨outs2, hr, hs⟩

/-- C5 witness: a first run materializes `output/t/n.txt`; the theorem then
yields a second run that changes nothing, performs no operation, and skips
the destination as already present. -/
theorem rerun_all_already_present_witness :
    ∃ outs2,
      processScript ⟨"", none, false⟩ (fun _ => 7)
          [("output/t/n.txt", FileVal.text "a b")]
          "zip-name t\nsave-text a_b as n.txt" =
        .ok ([("output/t/n.txt", FileVal.text "a b")], [], outs2) ∧
      ∀ o ∈ outs2, o.2 = CheckResult.skipAlreadyPresent :=
  rerun_all_already_present (fun _ => 7) (fun _ => 7) []
    "zip-name t\nsave-text a_b as n.txt" [("output/t/n.txt", FileVal.text "a b")]
    [.textWrite "output/t/n.txt" "a b"] [("n.txt", .fetch "output/t/n.txt")] rfl

end SaveAnswersheets
